import Mathlib

/-!
Verification development for the PDF-RAG server (`server-fastapi/app`).

The Python services are shallowly embedded as executable Lean functions:
Python strings become `List Char`, the Qdrant vector store becomes an
association list from collection names to point lists, `datetime.utcnow()`
becomes an explicit `Nat` clock argument, and external calls (the Gemini
embedding/LLM API, the Qdrant client `search`) become function parameters
of the embedding.  Fallible code returns `Except`/`Option`.
-/

namespace PdfRag

/-- Python `str` is modelled as a list of characters. -/
abbrev Str := List Char

/-- The character class of the regex `[.!?]+` used by
`PDFService._split_into_sentences` and `PDFService._get_overlap_text`. -/
def isPunct (c : Char) : Bool :=
  c == '.' || c == '!' || c == '?'

/-- The whitespace class of Python `str.strip()` (space, tab, newline,
carriage return, vertical tab, form feed). -/
def pyIsSpace (c : Char) : Bool :=
  c == ' ' || c == '\t' || c == '\n' || c == '\r' ||
  c == Char.ofNat 11 || c == Char.ofNat 12

/-- Python `s.strip()`: drop leading and trailing whitespace. -/
def pyStrip (s : Str) : Str :=
  ((s.dropWhile pyIsSpace).reverse.dropWhile pyIsSpace).reverse

/-- Python `re.split(r'[.!?]+', text)`: split on maximal runs of
sentence-terminal punctuation.  A run of punctuation characters produces one
boundary, so `"a..b"` yields `["a", "b"]` and `"a."` yields `["a", ""]`. -/
def splitPunct : Str → List Str
  | [] => [[]]
  | c :: rest =>
    if isPunct c then
      match rest with
      | [] => [[], []]
      | d :: _ =>
        if isPunct d then splitPunct rest
        else [] :: splitPunct rest
    else
      match splitPunct rest with
      | [] => [[c]]
      | p :: ps => (c :: p) :: ps

/-- The two-character separator `". "` used when re-joining sentences. -/
def dotSpace : Str := ['.', ' ']

/-- Python `sep.join(parts)`. -/
def joinSep (sep : Str) : List Str → Str
  | [] => []
  | [p] => p
  | p :: ps => p ++ sep ++ joinSep sep ps

/-- The list comprehension `[s.strip() for s in sentences if s.strip()]`
in `PDFService._split_into_sentences`. -/
def rawSentences (text : Str) : List Str :=
  ((splitPunct text).map pyStrip).filter (fun s => ¬ s.isEmpty)

/-- The merge loop of `PDFService._split_into_sentences`: short sentences are
accumulated (with `". "` appended after each) until the accumulator reaches
200 characters, then flushed. -/
def combineAux : List Str → Str → List Str
  | [], current =>
    if current.isEmpty then [] else [pyStrip current]
  | s :: rest, current =>
    if current.length + s.length < 200 then
      combineAux rest (current ++ s ++ dotSpace)
    else if current.isEmpty then
      combineAux rest (s ++ dotSpace)
    else
      pyStrip current :: combineAux rest (s ++ dotSpace)

/-- Model of `PDFService._split_into_sentences`. -/
def splitIntoSentences (text : Str) : List Str :=
  combineAux (rawSentences text) []

/-- Python `s[-k:]`.  For `k = 0` this is the whole string (a Python slicing
quirk: `s[-0:] == s[0:]`), otherwise the last `min k (length s)` characters. -/
def pyTailSlice (s : Str) (k : Nat) : Str :=
  if k == 0 then s else s.drop (s.length - k)

/-- Model of `PDFService._get_overlap_text`: the whole text when it fits inside the
overlap budget; otherwise the last `overlapSize` characters, re-aligned to a
sentence boundary (drop everything up to the first punctuation run and re-join
the remaining fragments with `". "`) when the slice contains one, else the
slice verbatim. -/
def getOverlapText (text : Str) (overlapSize : Nat) : Str :=
  if text.length ≤ overlapSize then text
  else
    let overlapText := pyTailSlice text overlapSize
    let sentences := splitPunct overlapText
    if 1 < sentences.length then
      pyStrip (joinSep dotSpace sentences.tail)
    else overlapText

/-- One output chunk of `PDFService.create_text_chunks` (the dict with keys
`text`, `size`, `chunk_index`, `overlap`). -/
structure Chunk where
  text : Str
  size : Nat
  chunk_index : Nat
  overlap : Str
deriving Repr, DecidableEq, Inhabited

/-- Error raised by `create_text_chunks` on whitespace-only input
(`ValueError("Empty text provided for chunking")`). -/
inductive ChunkErr
  | emptyInput
deriving Repr, DecidableEq

/-- The sentence-accumulation loop of `PDFService.create_text_chunks`.
State: emitted chunks, the current buffer `current_chunk`, the running
`current_size` counter, and the next `chunk_index`. -/
def createChunksAux (chunkSize chunkOverlap : Nat) :
    List Str → List Chunk → Str → Nat → Nat → List Chunk
  | [], chunks, current, _, idx =>
    if (pyStrip current).isEmpty then chunks
    else chunks ++ [⟨pyStrip current, current.length, idx, []⟩]
  | s :: rest, chunks, current, currentSize, idx =>
    if chunkSize < currentSize + s.length ∧ current ≠ [] then
      let ov := getOverlapText current chunkOverlap
      let newCurrent := ov ++ ' ' :: s
      createChunksAux chunkSize chunkOverlap rest
        (chunks ++ [⟨pyStrip current, current.length, idx, ov⟩])
        newCurrent newCurrent.length (idx + 1)
    else
      let newCurrent := if current.isEmpty then s else current ++ ' ' :: s
      createChunksAux chunkSize chunkOverlap rest chunks
        newCurrent (currentSize + s.length) idx

/-- Model of `PDFService.create_text_chunks text chunk_size chunk_overlap`. -/
def create_text_chunks (text : Str) (chunkSize chunkOverlap : Nat) :
    Except ChunkErr (List Chunk) :=
  if (pyStrip text).isEmpty then .error .emptyInput
  else .ok (createChunksAux chunkSize chunkOverlap (splitIntoSentences text) [] [] 0 0)

/-! Generic association maps with Python-`dict`-like overwrite semantics,
used for the Qdrant collection map and the process-tracker map. -/

/-- Lookup by key in an association list. -/
def alookup {β : Type} : List (Str × β) → Str → Option β
  | [], _ => none
  | (k, v) :: rest, key => if k == key then some v else alookup rest key

/-- Replace the value at every entry with the given key. -/
def aset {β : Type} (s : List (Str × β)) (key : Str) (v : β) : List (Str × β) :=
  s.map (fun e => if e.1 == key then (key, v) else e)

/-- Python `d[key] = v`: overwrite when present, append when absent. -/
def ainsert {β : Type} (s : List (Str × β)) (key : Str) (v : β) : List (Str × β) :=
  if (alookup s key).isSome then aset s key v else s ++ [(key, v)]

/-! Model of `QdrantService` (`app/services/qdrant_service.py`).  The Qdrant
server state is an association list from collection names to lists of points.
Embedding vectors are opaque to every claim, so their float entries are
modelled as integers.  `hash` (Python's salted string hash, an `int`) is a
parameter `h : Str → Int` of the embedding, and the Qdrant client's
server-side `search` is a parameter constrained to return points of the
searched collection. -/

/-- An embedding vector (float entries modelled as integers). -/
abbrev Vec := List Int

/-- The payload stored with each point by `store_document_chunks`.  The
`created_at` ISO timestamp is modelled as a `Nat` clock value. -/
structure Payload where
  user_id : Str
  document_id : Str
  chunk_index : Nat
  text : Str
  chunk_size : Nat
  created_at : Nat
deriving Repr, DecidableEq

/-- A `PointStruct`: id, vector and payload. -/
structure Point where
  id : Nat
  vector : Vec
  payload : Payload
deriving Repr, DecidableEq

/-- One Qdrant collection: its list of points. -/
abbrev Collection := List Point

/-- The Qdrant server: named collections. -/
abbrev QdrantState := List (Str × Collection)

/-- Model of `QdrantService.get_document_collection_name`: keep only alphanumeric
characters and underscores of the document id and prefix `doc_`. -/
def get_document_collection_name (documentId : Str) : Str :=
  ("doc").data ++ '_' :: documentId.filter (fun c => c.isAlphanum || c == '_')

/-- Model of `QdrantService.ensure_document_collection`: create-if-absent, returning
the collection name and the (possibly extended) server state. -/
def ensure_document_collection (s : QdrantState) (documentId : Str) :
    Str × QdrantState :=
  let name := get_document_collection_name documentId
  match alookup s name with
  | some _ => (name, s)
  | none => (name, s ++ [(name, [])])

/-- The point id of chunk `i` of a document:
`hash(f"{document_id}_{i}") % (2**63 - 1)` with Python's floor-mod, which is
non-negative for a positive modulus. -/
def pointId (h : Str → Int) (documentId : Str) (i : Nat) : Nat :=
  ((h (documentId ++ '_' :: (Nat.repr i).data)).emod (2 ^ 63 - 1)).toNat

/-- The two dict keys of a chunk read by `store_document_chunks`
(`chunk["text"]` and `chunk["size"]`). -/
structure ChunkDict where
  text : Str
  size : Nat
deriving Repr, DecidableEq

/-- Upsert one point: overwrite the point with the same id when present,
append otherwise. -/
def upsertPoint (c : Collection) (p : Point) : Collection :=
  if c.any (fun q => q.id == p.id) then
    c.map (fun q => if q.id == p.id then p else q)
  else c ++ [p]

/-- The Qdrant `upsert` call over a batch of points. -/
def upsertPoints (c : Collection) (ps : List Point) : Collection :=
  ps.foldl upsertPoint c

/-- The error `ValueError("No valid embeddings to store")`. -/
inductive StoreErr
  | noValidPoints
deriving Repr, DecidableEq

/-- The points built by `store_document_chunks`:
`for i, (chunk, embedding) in enumerate(zip(chunks, embeddings))`, skipping
`None` embeddings. -/
def mkPoints (h : Str → Int) (user documentId : Str)
    (chunks : List ChunkDict) (embeddings : List (Option Vec)) (now : Nat) :
    List Point :=
  (chunks.zip embeddings).enum.filterMap (fun ie =>
    ie.2.2.map (fun v =>
      { id := pointId h documentId ie.1, vector := v,
        payload :=
          { user_id := user, document_id := documentId, chunk_index := ie.1,
            text := ie.2.1.text, chunk_size := ie.2.1.size, created_at := now } }))

/-- Model of `QdrantService.store_document_chunks`.  Ensures the collection, builds the
points, raises `noValidPoints` when no embedding survives, otherwise upserts
and returns the number of points written.  The returned state reflects that
`ensure_document_collection` has already run even on the error path. -/
def store_document_chunks (h : Str → Int) (s : QdrantState) (user documentId : Str)
    (chunks : List ChunkDict) (embeddings : List (Option Vec)) (now : Nat) :
    Except StoreErr Nat × QdrantState :=
  let ns := ensure_document_collection s documentId
  let points := mkPoints h user documentId chunks embeddings now
  if points.isEmpty then (.error .noValidPoints, ns.2)
  else
    let coll := (alookup ns.2 ns.1).getD []
    (.ok points.length, aset ns.2 ns.1 (upsertPoints coll points))

/-- A point with the similarity score assigned by the Qdrant server. -/
structure ScoredPoint where
  point : Point
  score : Int
deriving Repr, DecidableEq

/-- The Qdrant client `search` call, external to the service: given the
points of the searched collection, a query vector and a limit it returns
scored points.  It is a parameter of the embedding. -/
abbrev SearchImpl := Collection → Vec → Nat → List ScoredPoint

/-- A valid search implementation only returns points of the searched
collection. -/
def SearchImplValid (impl : SearchImpl) : Prop :=
  ∀ pts qv k, ∀ r ∈ impl pts qv k, r.point ∈ pts

/-- A concrete valid search implementation used on concrete inputs: return
the collection's points in order, score 0, truncated to the limit. -/
def searchAll : SearchImpl := fun pts _ k => (pts.map (fun p => ⟨p, 0⟩)).take k

/-- The result schema `EmbeddingResult` populated by `search_similar_chunks`
from each hit's payload. -/
structure EmbeddingResult where
  chunk_id : Nat
  score : Int
  text : Str
  document_id : Str
  chunk_index : Nat
deriving Repr, DecidableEq

/-- Model of `QdrantService.search_similar_chunks`: ensure the document's collection
(creating it when absent), run the client search on that collection and map
payloads into `EmbeddingResult`s.  In the source the payload fields are read
with `payload.get(..., default)`; points written by `store_document_chunks`
always carry every field, which the model's total `Payload` record reflects. -/
def search_similar_chunks (impl : SearchImpl) (s : QdrantState)
    (documentId : Str) (queryEmbedding : Vec) (limit : Nat) :
    List EmbeddingResult × QdrantState :=
  let ns := ensure_document_collection s documentId
  let pts := (alookup ns.2 ns.1).getD []
  let raw := impl pts queryEmbedding limit
  (raw.map (fun r =>
    { chunk_id := r.point.id, score := r.score, text := r.point.payload.text,
      document_id := r.point.payload.document_id,
      chunk_index := r.point.payload.chunk_index }), ns.2)

/-- Model of `QdrantService.delete_document_collection`: no-op when the collection
does not exist, otherwise remove it. -/
def delete_document_collection (s : QdrantState) (documentId : Str) :
    Bool × QdrantState :=
  let name := get_document_collection_name documentId
  match alookup s name with
  | none => (true, s)
  | some _ => (true, s.filter (fun e => ¬ (e.1 == name)))

/-- Qdrant states reachable through the service's operations from an empty
server. -/
inductive Reachable (h : Str → Int) (impl : SearchImpl) : QdrantState → Prop
  | empty : Reachable h impl []
  | ensure {s : QdrantState} (doc : Str) :
      Reachable h impl s → Reachable h impl (ensure_document_collection s doc).2
  | store {s : QdrantState} (user doc : Str) (chunks : List ChunkDict)
      (embs : List (Option Vec)) (now : Nat) :
      Reachable h impl s →
      Reachable h impl (store_document_chunks h s user doc chunks embs now).2
  | search {s : QdrantState} (doc : Str) (qv : Vec) (limit : Nat) :
      Reachable h impl s →
      Reachable h impl (search_similar_chunks impl s doc qv limit).2
  | delete {s : QdrantState} (doc : Str) :
      Reachable h impl s → Reachable h impl (delete_document_collection s doc).2

/-! Model of `EmbeddingService.generate_batch_embeddings`
(`app/utils/embeddings.py`).  `generate_embedding` wraps the external API
call in a catch-all `except` returning `None`, so it is modelled by a
parameter `emb : Str → Option Vec` and never raises.  Consequently the only
statement inside the per-batch `try` that can raise after
`embeddings.extend(batch_embeddings)` has run is the caller-supplied
`progress_callback` (and `asyncio.sleep`); this is modelled by
`cbRaises : Nat → Bool` telling for each batch index whether the callback
raises, in which case the `except` branch appends `None` once per batch
position on top of the already-extended results. -/

/-- The `batch_size = 10` of `app/utils/embeddings.py`. -/
def embBatchSize : Nat := 10

/-- Python `l[s:e]` for `0 ≤ s ≤ e`. -/
def pySlice {α : Type} (l : List α) (s e : Nat) : List α :=
  (l.drop s).take (e - s)

/-- Model of `EmbeddingService.generate_batch_embeddings` of `app/utils/embeddings.py`:
loop over `ceil(n / batch_size)` batch indices, slice the inputs, embed each
slice element-wise, extend the accumulator, and on a raising progress
callback additionally extend with `None` for every position of the batch. -/
def generate_batch_embeddings (emb : Str → Option Vec) (cbRaises : Nat → Bool)
    (texts : List Str) : List (Option Vec) :=
  let n := texts.length
  let totalBatches := (n + embBatchSize - 1) / embBatchSize
  (List.range totalBatches).foldl (fun acc b =>
    let startIdx := b * embBatchSize
    let endIdx := min (startIdx + embBatchSize) n
    let batchTexts := pySlice texts startIdx endIdx
    let acc1 := acc ++ batchTexts.map emb
    if cbRaises b then acc1 ++ List.replicate batchTexts.length none else acc1) []

/-! Model of `ChatService.generate_response` (`app/services/chat_service.py`).
The query-embedding call and the Gemini LLM call are external and become
parameters; the result additionally carries the number of times the LLM
(`self.model.generate_content_async`, wrapped by `_generate_with_gemini`)
was invoked during the call.  Float score formatting (`{score:.2f}`,
`{score:.1%}`) is abstracted to integer rendering, which no claim observes. -/

/-- One message of the chat history (`{"role": ..., "content": ...}`). -/
structure ChatMsg where
  role : Str
  content : Str
deriving Repr, DecidableEq

/-- The dict returned by `generate_response`: `context_chunks` is only
present on the successful context path ( `[]` otherwise) and `error` only on
the exception path (`none` otherwise). -/
structure ChatResponse where
  response : Str
  sources : List Str
  context_used : Bool
  context_chunks : List EmbeddingResult
  error : Option Str
deriving Repr, DecidableEq

/-- The fixed no-context response text of `generate_response`. -/
def noInfoMsg : Str :=
  ("I cannot find any relevant information in the uploaded document to answer your question. The document may not have been processed yet or may not contain information related to your query.").data

/-- The response returned by the outer `except` branch of
`generate_response`. -/
def chatErrorResponse (e : Str) : ChatResponse :=
  { response := ("I apologize, but I encountered an error while processing your question. Please try again.").data,
    sources := [], context_used := false, context_chunks := [], error := some e }

/-- Python `l[-k:]`, for `k > 0`: the last `min k (length l)` elements. -/
def lastN {α : Type} (k : Nat) (l : List α) : List α :=
  l.drop (l.length - k)

/-- Integer rendering standing in for Python float formatting of scores. -/
def scoreStr (s : Int) : Str := (Int.repr s).data

/-- Model of `ChatService._prepare_context`: contexts numbered from 1 with their
relevance scores, joined by blank lines. -/
def prepareContext (chunks : List EmbeddingResult) : Str :=
  joinSep ['\n', '\n'] (chunks.enum.map (fun ic =>
    ("[Context ").data ++ (Nat.repr (ic.1 + 1)).data ++ (" - Relevance: ").data ++
      scoreStr ic.2.score ++ ']' :: '\n' :: ic.2.text))

/-- Model of `ChatService._build_conversation_history`: empty history renders as the
empty string, otherwise the last 6 messages as role-prefixed lines. -/
def buildConversationHistory (history : List ChatMsg) : Str :=
  if history.isEmpty then []
  else
    joinSep ['\n'] ((lastN 6 history).map (fun m =>
      (if m.role == ("user").data then ("Human: ").data else ("Assistant: ").data)
        ++ m.content))

/-- Model of `ChatService._build_prompt`: optional history block, context block,
question, fixed instruction, joined by newlines. -/
def buildPrompt (userMessage context history : Str) : Str :=
  let parts :=
    (if history.isEmpty then [] else
      [("Previous conversation:\n").data ++ history ++ ['\n']]) ++
    [("Document Context:\n").data ++ context ++ ['\n'],
     ("Human Question: ").data ++ userMessage ++ ['\n'],
     ("Please provide a helpful answer based on the document context above. If the information is not in the context, clearly state that you cannot find it in the uploaded document.").data]
  joinSep ['\n'] parts

/-- Model of `ChatService._format_sources`. -/
def formatSources (chunks : List EmbeddingResult) : List Str :=
  chunks.map (fun c =>
    ("Document section (chunk ").data ++ (Nat.repr (c.chunk_index + 1)).data ++
      (") - Relevance: ").data ++ scoreStr c.score)

/-- Model of `ChatService._generate_with_gemini`: the model call may raise; an empty
(falsy) `response.text` yields the fixed apology, otherwise the stripped
text. -/
def generateWithGemini (llm : Str → Except Str Str) (prompt : Str) :
    Except Str Str :=
  match llm prompt with
  | .error e => .error e
  | .ok t =>
    if t.isEmpty then
      .ok (("I apologize, but I couldn't generate a proper response. Please try rephrasing your question.").data)
    else .ok (pyStrip t)

/-- Model of `ChatService.generate_response`.  Parameters: the Qdrant search
implementation, the outcome of `generate_query_embedding` (which may raise),
and the LLM.  Returns the response dict, the Qdrant state after the call,
and the number of LLM invocations made during the call. -/
def generate_response (impl : SearchImpl) (qe : Except Str Vec)
    (llm : Str → Except Str Str) (s : QdrantState) (documentId : Str)
    (userMessage : Str) (history : List ChatMsg) :
    ChatResponse × QdrantState × Nat :=
  match qe with
  | .error e => (chatErrorResponse e, s, 0)
  | .ok qvec =>
    let rs := search_similar_chunks impl s documentId qvec 5
    if rs.1.isEmpty then
      ({ response := noInfoMsg, sources := [], context_used := false,
         context_chunks := [], error := none }, rs.2, 0)
    else
      let contextText := prepareContext rs.1
      let conversationHistory := buildConversationHistory history
      let prompt := buildPrompt userMessage contextText conversationHistory
      match generateWithGemini llm prompt with
      | .error e => (chatErrorResponse e, rs.2, 1)
      | .ok resp =>
        ({ response := resp, sources := formatSources rs.1, context_used := true,
           context_chunks := rs.1, error := none }, rs.2, 1)

/-! Model of `ProcessTracker` (`app/services/process_tracker.py`).
`datetime.utcnow()` is an explicit `Nat` clock argument. -/

/-- Model of `ProcessStatus`. -/
inductive PStatus
  | pending
  | processing
  | completed
  | failed
deriving Repr, DecidableEq

/-- Model of `ProcessInfo`. -/
structure ProcessInfo where
  process_id : Str
  document_id : Str
  status : PStatus
  progress_percent : Int
  message : Str
  created_at : Nat
  completed_at : Option Nat
  error : Option Str
deriving Repr, DecidableEq

/-- The tracker's `self._processes` dict. -/
abbrev TrackerState := List (Str × ProcessInfo)

/-- Model of `ProcessTracker.create_process`. -/
def create_process (s : TrackerState) (pid doc : Str) (now : Nat) :
    ProcessInfo × TrackerState :=
  let p : ProcessInfo :=
    { process_id := pid, document_id := doc, status := .pending,
      progress_percent := 0, message := ("Processing started...").data,
      created_at := now, completed_at := none, error := none }
  (p, ainsert s pid p)

/-- Model of `ProcessTracker.get_process`. -/
def get_process (s : TrackerState) (pid : Str) : Option ProcessInfo :=
  alookup s pid

/-- Model of `ProcessTracker.update_process`: `false` for an unknown id; otherwise
unconditionally overwrite status, progress, message and error, and stamp
`completed_at` with the current time whenever the new status is `completed`
or `failed`. -/
def update_process (s : TrackerState) (pid : Str) (status : PStatus)
    (progress : Int) (message : Str) (err : Option Str) (now : Nat) :
    Bool × TrackerState :=
  match alookup s pid with
  | none => (false, s)
  | some p =>
    let p' := { p with
      status := status, progress_percent := progress, message := message,
      error := err,
      completed_at :=
        if status = .completed ∨ status = .failed then some now
        else p.completed_at }
    (true, aset s pid p')

/-! Model of the `POST /process/{document_id}` route
(`app/api/routes/processing.py: process_document`).  The database lookup
result (the document's processing status, or `none` when no document matches
the id and user) is the input; the route either raises an HTTP error before
scheduling anything or returns its response body after adding exactly one
background processing task. -/

/-- A document's `processing_status` column. -/
inductive DocStatus
  | pending
  | processing
  | completed
  | failed
deriving Repr, DecidableEq

/-- The HTTP errors the route can raise before scheduling work. -/
inductive RouteErr
  | notFound
  | conflictProcessing
  | conflictCompleted
deriving Repr, DecidableEq

/-- The route's success message `f"Document {document_id} processing started"`. -/
def routeMessage (documentId : Str) : Str :=
  ("Document ").data ++ documentId ++ (" processing started").data

/-- The `process_document` route: 404 when the lookup fails, 409 when the
status is `processing` or `completed`, otherwise the success body together
with the single scheduled background task (the document id handed to
`DocumentProcessor.process_document`). -/
def process_document_route (docStatus : Option DocStatus) (documentId : Str) :
    Except RouteErr (Str × List Str) :=
  match docStatus with
  | none => .error .notFound
  | some st =>
    if st = .processing then .error .conflictProcessing
    else if st = .completed then .error .conflictCompleted
    else .ok (routeMessage documentId, [documentId])

/-! Derived notions and concrete inputs used by the claim theorems. -/

/-- Whether a string begins with a whitespace character. -/
def startsWithSpace : Str → Bool
  | [] => false
  | c :: _ => pyIsSpace c

/-- The length of the longest sentence produced for a text. -/
def maxSentLen (text : Str) : Nat :=
  ((splitIntoSentences text).map List.length).foldr max 0

/-- The store invariant: every point of a collection carries a
`document_id` whose sanitized collection name is the collection it lives
in. -/
def StoreInv (s : QdrantState) : Prop :=
  ∀ e ∈ s, ∀ p ∈ e.2, get_document_collection_name p.payload.document_id = e.1

/-- Adjacency structure of a chunk list: each chunk's text is the stripped
concatenation of the previous chunk's overlap, a space, and further material
containing a full stop. -/
def AdjSeeded (cs : List Chunk) : Prop :=
  ∀ i ci ci1, cs.get? i = some ci → cs.get? (i + 1) = some ci1 →
    ∃ r, '.' ∈ r ∧ ci1.text = pyStrip (ci.overlap ++ ' ' :: r)

/-- Decidable equality of `Except` results. -/
instance {ε α : Type} [DecidableEq ε] [DecidableEq α] :
    DecidableEq (Except ε α) := fun x y =>
  match x, y with
  | .error a, .error b =>
    if h : a = b then .isTrue (h ▸ rfl)
    else .isFalse (fun hc => h (by injection hc))
  | .ok a, .ok b =>
    if h : a = b then .isTrue (h ▸ rfl)
    else .isFalse (fun hc => h (by injection hc))
  | .error _, .ok _ => .isFalse (fun hc => Except.noConfusion hc)
  | .ok _, .error _ => .isFalse (fun hc => Except.noConfusion hc)

/-- Concrete text of three 199-character sentences: the sentence splitter
merges nothing further, and with `chunk_size = 398` the first two sentences
fit by the tracked size while their joined text has 399 characters. -/
def c4text : Str :=
  List.replicate 198 'x' ++ ('.' :: ' ' :: List.replicate 198 'y') ++
    ('.' :: ' ' :: List.replicate 198 'z') ++ ['.']

/-- Concrete text whose chunking with `chunk_size = 400`,
`chunk_overlap = 210` produces a middle chunk whose verbatim overlap starts
with a space. -/
def c5text : Str :=
  List.replicate 220 'x' ++ '.' :: List.replicate 201 'y' ++
    '.' :: List.replicate 199 'z' ++ ['.']

/-- The chunk list produced for `c5text`. -/
def c5chunks : List Chunk :=
  (create_text_chunks c5text 400 210).toOption.getD []

/-- Concrete two-sentence text used to instantiate the overlap/seeding
theorem: two 200-character sentences, split at `chunk_size = 250`. -/
def c5wtext : Str :=
  List.replicate 199 'x' ++ ('.' :: ' ' :: List.replicate 199 'y') ++ ['.']

/-- The chunk list produced for `c5wtext`. -/
def c5wchunks : List Chunk :=
  (create_text_chunks c5wtext 250 50).toOption.getD []

/-- A Qdrant state holding one point indexed under document id `"ab"`,
whose collection name `doc_ab` is shared with the distinct document id
`"ab!"`. -/
def c1state : QdrantState :=
  (store_document_chunks (fun _ => 0) [] (("u").data) (("ab").data)
    [{ text := ("t").data, size := 1 }] [some [1]] 0).2

/-- Tracker state: one process created at time 0. -/
def c9s0 : TrackerState := (create_process [] ['p'] ['d'] 0).2

/-- Tracker state: the process updated to `completed` at time 1. -/
def c9s1 : TrackerState :=
  (update_process c9s0 ['p'] .completed 100 [] none 1).2

/-- Tracker state: the same process subsequently updated back to
`processing` at time 2. -/
def c9s2 : TrackerState :=
  (update_process c9s1 ['p'] .processing 10 [] none 2).2

/-- Tracker state: the same process then updated to `failed` at time 3. -/
def c9s3 : TrackerState :=
  (update_process c9s2 ['p'] .failed 0 [] none 3).2

/-- The record created by `create_process [] "p" "d" 0`. -/
def c9p0 : ProcessInfo :=
  { process_id := ['p'], document_id := ['d'], status := .pending,
    progress_percent := 0, message := ("Processing started...").data,
    created_at := 0, completed_at := none, error := none }

/-! Helper lemmas. -/

/-- Unfolding lemma: lookup on a cons cell. -/
theorem alookup_cons {β : Type} (k : Str) (w : β) (rest : List (Str × β))
    (key : Str) :
    alookup ((k, w) :: rest) key =
      if k == key then some w else alookup rest key := rfl

/-- Unfolding lemma: aset on a cons cell. -/
theorem aset_cons {β : Type} (k : Str) (w : β) (rest : List (Str × β))
    (key : Str) (v : β) :
    aset ((k, w) :: rest) key v =
      (if k == key then (key, v) else (k, w)) :: aset rest key v := rfl

/-- Setting a present key makes the lookup return the new value. -/
theorem alookup_aset_self {β : Type} (s : List (Str × β)) (key : Str) (v : β)
    (h : (alookup s key).isSome) : alookup (aset s key v) key = some v := by
  induction s with
  | nil => simp [alookup] at h
  | cons e rest ih =>
    obtain ⟨k, w⟩ := e
    rw [aset_cons]
    by_cases hk : (k == key) = true
    · rw [if_pos hk, alookup_cons]
      simp
    · rw [if_neg hk, alookup_cons, if_neg hk]
      refine ih ?_
      rw [alookup_cons, if_neg hk] at h
      exact h

/-- Lookup distributes over append when the key is absent on the left. -/
theorem alookup_append_of_none {β : Type} (s l : List (Str × β)) (key : Str)
    (h : alookup s key = none) : alookup (s ++ l) key = alookup l key := by
  induction s with
  | nil => simp
  | cons e rest ih =>
    obtain ⟨k, w⟩ := e
    by_cases hk : (k == key) = true
    · simp [alookup, hk] at h
    · simp only [alookup, hk] at h ⊢
      simp only [List.cons_append, alookup, hk, if_neg, Bool.false_eq_true,
        if_false]
      exact ih h

/-- A successful lookup comes from a member of the association list. -/
theorem alookup_mem {β : Type} (s : List (Str × β)) (key : Str) (v : β)
    (h : alookup s key = some v) : (key, v) ∈ s := by
  induction s with
  | nil => simp [alookup] at h
  | cons e rest ih =>
    obtain ⟨k, w⟩ := e
    by_cases hk : (k == key) = true
    · simp only [alookup, hk, if_pos, Option.some.injEq] at h
      have : k = key := by simpa using hk
      subst this; subst h
      exact List.mem_cons_self _ _
    · simp only [alookup, hk, Bool.false_eq_true, if_false] at h
      exact List.mem_cons_of_mem _ (ih h)

/-- The reference search implementation is valid: it only returns points of
the searched collection. -/
theorem searchAll_valid : SearchImplValid searchAll := by
  intro pts qv k r hr
  have hr' : r ∈ pts.map (fun p => ScoredPoint.mk p 0) :=
    List.mem_of_mem_take hr
  obtain ⟨p, hp, rfl⟩ := List.mem_map.mp hr'
  exact hp

/-! Claim theorems. -/

/-- C3 (confirmed): when the similarity search returns no chunks,
`generate_response` returns the fixed "cannot find any relevant information"
response with `context_used = false` and empty sources, and the language
model is invoked zero times during the call. -/
theorem C3_no_context_short_circuit (impl : SearchImpl)
    (llm : Str → Except Str Str) (s : QdrantState)
    (documentId userMessage : Str) (history : List ChatMsg) (qv : Vec)
    (hempty : (search_similar_chunks impl s documentId qv 5).1 = []) :
    generate_response impl (.ok qv) llm s documentId userMessage history =
      ({ response := noInfoMsg, sources := [], context_used := false,
         context_chunks := [], error := none },
       (search_similar_chunks impl s documentId qv 5).2, 0) := by
  simp [generate_response, hempty]

/-- Witness for C3 at a concrete empty store. -/
theorem C3_witness :
    generate_response searchAll (.ok []) (fun _ => .ok []) [] ['d'] [] [] =
      ({ response := noInfoMsg, sources := [], context_used := false,
         context_chunks := [], error := none },
       (search_similar_chunks searchAll [] ['d'] [] 5).2, 0) :=
  C3_no_context_short_circuit searchAll (fun _ => .ok []) [] ['d'] [] [] []
    (by decide)

/-- C8 (confirmed): a processing request on a document whose status is
`processing` or `completed` is rejected with a 409 conflict (no task is
scheduled, no state touched), while `pending` and `failed` documents are
accepted and exactly one background processing run is scheduled. -/
theorem C8_entry_guard (documentId : Str) (st : DocStatus) :
    ((st = .processing ∨ st = .completed) →
      (process_document_route (some st) documentId = .error .conflictProcessing ∨
       process_document_route (some st) documentId = .error .conflictCompleted)) ∧
    ((st = .pending ∨ st = .failed) →
      process_document_route (some st) documentId =
        .ok (routeMessage documentId, [documentId])) := by
  constructor
  · rintro (rfl | rfl) <;> simp [process_document_route]
  · rintro (rfl | rfl) <;> simp [process_document_route]

/-- Witness for C8 at concrete statuses. -/
theorem C8_witness :
    (process_document_route (some .processing) ['d'] = .error .conflictProcessing ∨
     process_document_route (some .processing) ['d'] = .error .conflictCompleted) ∧
    process_document_route (some .failed) ['d'] =
      .ok (routeMessage ['d'], [['d']]) :=
  ⟨(C8_entry_guard ['d'] .processing).1 (Or.inl rfl),
   (C8_entry_guard ['d'] .failed).2 (Or.inr rfl)⟩

/-- C9 (refuting the claim as stated): after the process enters `completed`
at time 1, a later `update_process` moves it back to `processing`, and a
later terminal update re-stamps `completed_at` from 1 to 3 — terminal states
are not final and `completed_at` is not set exactly once. -/
theorem C9_counterexample :
    (get_process c9s1 ['p']).map (fun p => p.status) = some .completed ∧
    (get_process c9s2 ['p']).map (fun p => p.status) = some .processing ∧
    (get_process c9s1 ['p']).map (fun p => p.completed_at) = some (some 1) ∧
    (get_process c9s3 ['p']).map (fun p => p.completed_at) = some (some 3) := by
  decide

/-- C9 (amended): `update_process` performs no terminal-state check — for a
known process id it returns `true` and unconditionally overwrites status,
progress, message and error, re-stamping `completed_at` with the current
time on every update whose new status is `completed` or `failed` and leaving
it untouched otherwise. -/
theorem C9_amended (s : TrackerState) (pid : Str) (st : PStatus) (prog : Int)
    (msg : Str) (err : Option Str) (now : Nat) (p : ProcessInfo)
    (hp : alookup s pid = some p) :
    (update_process s pid st prog msg err now).1 = true ∧
    get_process (update_process s pid st prog msg err now).2 pid =
      some { p with
             status := st, progress_percent := prog, message := msg,
             error := err,
             completed_at :=
               if st = .completed ∨ st = .failed then some now
               else p.completed_at } := by
  unfold update_process get_process
  rw [hp]
  exact ⟨rfl, alookup_aset_self s pid _ (by rw [hp]; rfl)⟩

/-- Witness for C9 at the concrete tracker state. -/
theorem C9_witness :
    (update_process c9s0 ['p'] .completed 100 [] none 1).1 = true ∧
    get_process (update_process c9s0 ['p'] .completed 100 [] none 1).2 ['p'] =
      some { c9p0 with
             status := .completed, progress_percent := 100,
             message := [], error := none,
             completed_at :=
               if PStatus.completed = .completed ∨ PStatus.completed = .failed
               then some 1 else c9p0.completed_at } :=
  C9_amended c9s0 ['p'] .completed 100 [] none 1 c9p0 (by decide)

/-- C10 (confirmed): searching a document whose collection does not exist
first creates an empty collection for it (the returned state is the input
state extended with the new empty collection) and returns no results. -/
theorem C10_search_creates_collection (impl : SearchImpl)
    (hv : SearchImplValid impl) (s : QdrantState) (documentId : Str)
    (qv : Vec) (k : Nat)
    (habs : alookup s (get_document_collection_name documentId) = none) :
    (search_similar_chunks impl s documentId qv k).2 =
      s ++ [(get_document_collection_name documentId, [])] ∧
    alookup (search_similar_chunks impl s documentId qv k).2
      (get_document_collection_name documentId) = some [] ∧
    (search_similar_chunks impl s documentId qv k).1 = [] := by
  have hens : ensure_document_collection s documentId =
      (get_document_collection_name documentId,
       s ++ [(get_document_collection_name documentId, [])]) := by
    simp [ensure_document_collection, habs]
  have hlook : alookup (s ++ [(get_document_collection_name documentId, [])])
      (get_document_collection_name documentId) = some [] := by
    rw [alookup_append_of_none _ _ _ habs]
    simp [alookup]
  refine ⟨?_, ?_, ?_⟩
  · simp [search_similar_chunks, hens]
  · simp [search_similar_chunks, hens, hlook]
  · have hraw : impl [] qv k = [] := by
      rw [List.eq_nil_iff_forall_not_mem]
      intro r hr
      exact absurd (hv [] qv k r hr) (List.not_mem_nil r.point)
    simp [search_similar_chunks, hens, hlook, hraw]

/-- Witness for C10 at a concrete empty store. -/
theorem C10_witness :
    (search_similar_chunks searchAll [] ['d'] [] 3).2 =
      [] ++ [(get_document_collection_name ['d'], [])] ∧
    alookup (search_similar_chunks searchAll [] ['d'] [] 3).2
      (get_document_collection_name ['d']) = some [] ∧
    (search_similar_chunks searchAll [] ['d'] [] 3).1 = [] :=
  C10_search_creates_collection searchAll searchAll_valid [] ['d'] [] 3
    (by decide)

/-- C6 (refuting the claim as stated): with a single input text whose
embedding succeeds, a raising progress callback makes
`generate_batch_embeddings` return its real result followed by a padding
`None` — two outputs for one input, so the one-output-per-input contract is
violated. -/
theorem C6_counterexample :
    generate_batch_embeddings (fun _ => some []) (fun _ => true)
      ([['a']] : List Str) = [some [], none] ∧
    (generate_batch_embeddings (fun _ => some []) (fun _ => true)
      ([['a']] : List Str)).length ≠ ([['a']] : List Str).length := by
  decide

/-- C7 (refuting the claim as stated): with an empty chunk list and one
present embedding, `zip` truncates the pairing, so the call raises
`noValidPoints` even though not every input embedding is absent. -/
theorem C7_counterexample :
    (store_document_chunks (fun _ => 0) [] ['u'] ['d']
        ([] : List ChunkDict) [some [1]] 0).1 = .error .noValidPoints ∧
    ¬ (∀ e ∈ ([some [1]] : List (Option Vec)), e = none) := by
  decide

/-- C1 (refuting the claim as stated): the distinct document ids `"ab!"`
and `"ab"` sanitize to the same collection name, so after indexing a point
under `"ab"`, a search for document `"ab!"` returns a result whose payload
`document_id` is `"ab"`. -/
theorem C1_counterexample :
    (("ab!").data ≠ ("ab").data) ∧
    ∃ r ∈ (search_similar_chunks searchAll c1state (("ab!").data) [1] 5).1,
      r.document_id = ("ab").data := by
  decide

/-- Folding an append-only step function over a list collects the pieces. -/
theorem foldl_append_eq {α : Type} (g : Nat → List α) (l : List Nat)
    (init : List α) :
    l.foldl (fun acc b => acc ++ g b) init = init ++ (l.map g).flatten := by
  induction l generalizing init with
  | nil => simp
  | cons b rest ih => simp [ih, List.append_assoc]

/-- Joining the batch slices of a list, mapped element-wise, recovers the
element-wise map of the whole list. -/
theorem slices_join (emb : Str → Option Vec) :
    ∀ (fuel : Nat) (texts : List Str), texts.length ≤ fuel →
      ((List.range ((texts.length + embBatchSize - 1) / embBatchSize)).map
        (fun b => (pySlice texts (b * embBatchSize)
          (min (b * embBatchSize + embBatchSize) texts.length)).map emb)).flatten
      = texts.map emb := by
  intro fuel
  induction fuel with
  | zero =>
    intro texts h
    have hnil : texts = [] := List.length_eq_zero.mp (Nat.le_zero.mp h)
    subst hnil
    simp [embBatchSize]
  | succ fuel ih =>
    intro texts h
    rcases texts with _ | ⟨t, ts⟩
    · simp [embBatchSize]
    · have hdlen : ((t :: ts).drop embBatchSize).length =
          (t :: ts).length - embBatchSize := List.length_drop _ _
      have htot : ((t :: ts).length + embBatchSize - 1) / embBatchSize =
          (((t :: ts).drop embBatchSize).length + embBatchSize - 1) /
            embBatchSize + 1 := by
        rw [hdlen]
        simp only [embBatchSize, List.length_cons]
        omega
      rw [htot, List.range_succ_eq_map, List.map_cons, List.flatten_cons,
        List.map_map]
      have hfun : ∀ b : Nat,
          (pySlice (t :: ts) (Nat.succ b * embBatchSize)
            (min (Nat.succ b * embBatchSize + embBatchSize)
              (t :: ts).length)).map emb
          = (pySlice ((t :: ts).drop embBatchSize) (b * embBatchSize)
              (min (b * embBatchSize + embBatchSize)
                ((t :: ts).drop embBatchSize).length)).map emb := by
        intro b
        unfold pySlice
        rw [List.drop_drop, hdlen]
        have harith : b * embBatchSize + embBatchSize = Nat.succ b * embBatchSize := by
          simp [Nat.succ_mul]
        rw [harith]
        have hamount : min (Nat.succ b * embBatchSize + embBatchSize)
              (t :: ts).length - Nat.succ b * embBatchSize
            = min (Nat.succ b * embBatchSize)
                ((t :: ts).length - embBatchSize) - b * embBatchSize := by
          simp only [embBatchSize, Nat.succ_mul]
          omega
        have harith2 : embBatchSize + b * embBatchSize =
            Nat.succ b * embBatchSize := by
          simp [Nat.succ_mul, Nat.add_comm]
        rw [hamount, harith2]
      have htail :
          ((List.range ((((t :: ts).drop embBatchSize).length + embBatchSize - 1)
              / embBatchSize)).map
            ((fun b => (pySlice (t :: ts) (b * embBatchSize)
              (min (b * embBatchSize + embBatchSize) (t :: ts).length)).map emb)
              ∘ Nat.succ)).flatten
          = ((t :: ts).drop embBatchSize).map emb := by
        have hcong :
            (List.range ((((t :: ts).drop embBatchSize).length + embBatchSize - 1)
              / embBatchSize)).map
              ((fun b => (pySlice (t :: ts) (b * embBatchSize)
                (min (b * embBatchSize + embBatchSize) (t :: ts).length)).map emb)
                ∘ Nat.succ)
            = (List.range ((((t :: ts).drop embBatchSize).length + embBatchSize - 1)
                / embBatchSize)).map
              (fun b => (pySlice ((t :: ts).drop embBatchSize) (b * embBatchSize)
                (min (b * embBatchSize + embBatchSize)
                  ((t :: ts).drop embBatchSize).length)).map emb) := by
          refine List.map_congr_left ?_
          intro b _
          exact hfun b
        have hlen2 : ((t :: ts).drop embBatchSize).length ≤ fuel := by
          rw [hdlen]
          simp only [embBatchSize, List.length_cons] at h ⊢
          omega
        rw [hcong]
        exact ih _ hlen2
      rw [htail]
      have hhead : pySlice (t :: ts) (0 * embBatchSize)
          (min (0 * embBatchSize + embBatchSize) (t :: ts).length)
          = (t :: ts).take embBatchSize := by
        unfold pySlice
        rw [Nat.zero_mul, List.drop_zero, Nat.zero_add, Nat.sub_zero]
        apply List.take_eq_take.mpr
        simp only [embBatchSize, List.length_cons]
        omega
      rw [hhead, ← List.map_append, List.take_append_drop]

/-- C6 (amended): as long as the progress callback does not raise,
`generate_batch_embeddings` returns exactly one output per input in input
order — position `j` is `None` exactly when the embedding call for
`texts[j]` returned `None` — i.e. the result is the element-wise map of the
per-item embedding outcome over the inputs (the empty list maps to the
empty list). -/
theorem C6_amended (emb : Str → Option Vec) (cbRaises : Nat → Bool)
    (texts : List Str) (hcb : ∀ b, cbRaises b = false) :
    generate_batch_embeddings emb cbRaises texts = texts.map emb := by
  unfold generate_batch_embeddings
  simp only [hcb, Bool.false_eq_true, if_false]
  rw [foldl_append_eq]
  rw [List.nil_append]
  exact slices_join emb texts.length texts le_rfl

/-- Witness for C6 at a concrete two-element input whose first embedding
succeeds and whose second fails. -/
theorem C6_witness :
    generate_batch_embeddings
      (fun t => if t = ['a'] then some [1] else none) (fun _ => false)
      ([['a'], ['b']] : List Str) =
    ([['a'], ['b']] : List Str).map
      (fun t => if t = ['a'] then some [1] else none) :=
  C6_amended (fun t => if t = ['a'] then some [1] else none) (fun _ => false)
    ([['a'], ['b']] : List Str) (fun _ => rfl)

/-- Counting the surviving points of the indexed filterMap: one point per
position whose embedding is present, independent of the start index. -/
theorem enumFrom_filterMap_length (f : Nat → ChunkDict → Vec → Point) :
    ∀ (l : List (ChunkDict × Option Vec)) (i0 : Nat),
      ((List.enumFrom i0 l).filterMap
        (fun ie => ie.2.2.map (f ie.1 ie.2.1))).length
      = ((l.map Prod.snd).filter (fun e => e.isSome)).length := by
  intro l
  induction l with
  | nil => intro i0; simp
  | cons ce rest ih =>
    intro i0
    obtain ⟨c, e⟩ := ce
    cases e with
    | none => simpa [List.enumFrom, List.filterMap_cons] using ih (i0 + 1)
    | some v => simpa [List.enumFrom, List.filterMap_cons] using ih (i0 + 1)

/-- The number of points built by `store_document_chunks` equals the number
of present embeddings among the zipped positions. -/
theorem mkPoints_length (h : Str → Int) (user doc : Str)
    (chunks : List ChunkDict) (embs : List (Option Vec)) (now : Nat) :
    (mkPoints h user doc chunks embs now).length
      = (((chunks.zip embs).map Prod.snd).filter (fun e => e.isSome)).length :=
  enumFrom_filterMap_length
    (fun i c v =>
      { id := pointId h doc i, vector := v,
        payload := { user_id := user, document_id := doc, chunk_index := i,
                     text := c.text, chunk_size := c.size, created_at := now } })
    (chunks.zip embs) 0

/-- C7 (amended): when the chunk and embedding lists have equal length (the
source zips them, silently dropping surplus positions otherwise),
`store_document_chunks` raises `noValidPoints` — leaving the collection
exactly as `ensure_document_collection` left it, with no points written — if
and only if every embedding is `None`; when at least one embedding is
present it returns exactly the count of non-`None` embeddings. -/
theorem C7_amended (h : Str → Int) (s : QdrantState) (user doc : Str)
    (chunks : List ChunkDict) (embs : List (Option Vec)) (now : Nat)
    (hlen : chunks.length = embs.length) :
    ((∀ e ∈ embs, e = none) →
      store_document_chunks h s user doc chunks embs now =
        (.error .noValidPoints, (ensure_document_collection s doc).2)) ∧
    ((∃ e ∈ embs, e ≠ none) →
      (store_document_chunks h s user doc chunks embs now).1 =
        .ok ((embs.filter (fun e => e.isSome)).length)) := by
  have hsnd : (chunks.zip embs).map Prod.snd = embs :=
    List.map_snd_zip chunks embs (le_of_eq hlen.symm)
  have hplen : (mkPoints h user doc chunks embs now).length
      = (embs.filter (fun e => e.isSome)).length := by
    rw [mkPoints_length, hsnd]
  constructor
  · intro hall
    have hfil : embs.filter (fun e => e.isSome) = [] := by
      apply List.filter_eq_nil_iff.mpr
      intro e he
      rw [hall e he]
      simp
    have hne : mkPoints h user doc chunks embs now = [] := by
      apply List.length_eq_zero.mp
      rw [hplen, hfil]
      rfl
    simp [store_document_chunks, hne]
  · rintro ⟨e, he, hnone⟩
    have hmem : e ∈ embs.filter (fun e => e.isSome) :=
      List.mem_filter.mpr ⟨he, by
        cases e with
        | none => exact absurd rfl hnone
        | some v => rfl⟩
    have hnonempty : mkPoints h user doc chunks embs now ≠ [] := by
      intro hn
      rw [hn] at hplen
      have hpos : 0 < (embs.filter (fun e => e.isSome)).length :=
        List.length_pos.mpr (List.ne_nil_of_mem hmem)
      simp at hplen
      omega
    have hie : (mkPoints h user doc chunks embs now).isEmpty = false := by
      cases hmk : mkPoints h user doc chunks embs now with
      | nil => exact absurd hmk hnonempty
      | cons a l => rfl
    simp [store_document_chunks, hie, hplen]

/-- Witness for C7 at a concrete aligned pair of lists. -/
theorem C7_witness :
    (store_document_chunks (fun _ => 0) [] ['u'] ['d']
        [{ text := ['t'], size := 1 }] [some [1]] 0).1 =
      .ok ((([some [1]] : List (Option Vec)).filter
        (fun e => e.isSome)).length) :=
  (C7_amended (fun _ => 0) [] ['u'] ['d'] [{ text := ['t'], size := 1 }]
      [some [1]] 0 (by decide)).2 ⟨some [1], by decide, by decide⟩

/-- Upserting a point whose id is already present keeps the collection size. -/
theorem upsertPoint_length_of_mem (c : Collection) (p : Point)
    (hmem : p.id ∈ c.map Point.id) : (upsertPoint c p).length = c.length := by
  unfold upsertPoint
  have hany : c.any (fun q => q.id == p.id) = true := by
    rw [List.any_eq_true]
    obtain ⟨q, hq, hid⟩ := List.mem_map.mp hmem
    exact ⟨q, hq, by simp [hid]⟩
  rw [if_pos hany, List.length_map]

/-- The upserted point's id is present afterwards. -/
theorem mem_ids_upsertPoint_self (c : Collection) (p : Point) :
    p.id ∈ (upsertPoint c p).map Point.id := by
  unfold upsertPoint
  by_cases hany : c.any (fun q => q.id == p.id) = true
  · rw [if_pos hany]
    obtain ⟨q, hq, hid⟩ := List.any_eq_true.mp hany
    have hq' : p ∈ c.map (fun q => if q.id == p.id then p else q) :=
      List.mem_map.mpr ⟨q, hq, by simp [hid]⟩
    exact List.mem_map.mpr ⟨p, hq', rfl⟩
  · rw [if_neg hany, List.map_append]
    simp

/-- Upserting never removes an id. -/
theorem mem_ids_upsertPoint_mono (c : Collection) (p : Point) (x : Nat)
    (hx : x ∈ c.map Point.id) : x ∈ (upsertPoint c p).map Point.id := by
  unfold upsertPoint
  by_cases hany : c.any (fun q => q.id == p.id) = true
  · rw [if_pos hany]
    obtain ⟨q, hq, hqx⟩ := List.mem_map.mp hx
    by_cases hqp : (q.id == p.id) = true
    · have hqid : q.id = p.id := by simpa using hqp
      refine List.mem_map.mpr
        ⟨p, List.mem_map.mpr ⟨q, hq, by simp [hqp]⟩, ?_⟩
      rw [← hqx, hqid]
    · exact List.mem_map.mpr ⟨q, List.mem_map.mpr ⟨q, hq, by simp [hqp]⟩, hqx⟩
  · rw [if_neg hany, List.map_append]
    exact List.mem_append_left _ hx

/-- Batch upserts never remove an id. -/
theorem mem_ids_upsertPoints_mono (ps : List Point) (c : Collection) (x : Nat)
    (hx : x ∈ c.map Point.id) : x ∈ (upsertPoints c ps).map Point.id := by
  induction ps generalizing c with
  | nil => exact hx
  | cons p rest ih => exact ih _ (mem_ids_upsertPoint_mono c p x hx)

/-- After a batch upsert, every upserted id is present. -/
theorem mem_ids_upsertPoints_self (ps : List Point) :
    ∀ (c : Collection) (p : Point), p ∈ ps →
      p.id ∈ (upsertPoints c ps).map Point.id := by
  induction ps with
  | nil => intro c p hp; cases hp
  | cons q rest ih =>
    intro c p hp
    rcases List.mem_cons.mp hp with rfl | hp'
    · exact mem_ids_upsertPoints_mono rest _ _ (mem_ids_upsertPoint_self c p)
    · exact ih _ p hp'

/-- A batch upsert of points whose ids are all already present keeps the
collection size. -/
theorem upsertPoints_length_of_all_mem (ps : List Point) :
    ∀ (c : Collection), (∀ p ∈ ps, p.id ∈ c.map Point.id) →
      (upsertPoints c ps).length = c.length := by
  induction ps with
  | nil => intro c _; rfl
  | cons p rest ih =>
    intro c hall
    have h1 : (upsertPoint c p).length = c.length :=
      upsertPoint_length_of_mem c p (hall p (List.mem_cons_self p rest))
    have h2 : ∀ q ∈ rest, q.id ∈ (upsertPoint c p).map Point.id :=
      fun q hq =>
        mem_ids_upsertPoint_mono c p q.id (hall q (List.mem_cons_of_mem _ hq))
    calc (upsertPoints c (p :: rest)).length
        = (upsertPoints (upsertPoint c p) rest).length := rfl
      _ = (upsertPoint c p).length := ih _ h2
      _ = c.length := h1

/-- The point ids built by `store_document_chunks` do not depend on the
timestamp. -/
theorem mkPoints_ids_time (h : Str → Int) (user doc : Str)
    (chunks : List ChunkDict) (embs : List (Option Vec)) (t t' : Nat) :
    (mkPoints h user doc chunks embs t).map Point.id
      = (mkPoints h user doc chunks embs t').map Point.id := by
  unfold mkPoints
  rw [List.map_filterMap, List.map_filterMap]
  congr 1
  funext ie
  cases ie.2.2 <;> simp

/-- The collection name component of `ensure_document_collection`. -/
theorem ensure_fst (s : QdrantState) (doc : Str) :
    (ensure_document_collection s doc).1 =
      get_document_collection_name doc := by
  cases hl : alookup s (get_document_collection_name doc) with
  | none => simp [ensure_document_collection, hl]
  | some c => simp [ensure_document_collection, hl]

/-- After ensuring, the document's collection is present. -/
theorem ensure_lookup_isSome (s : QdrantState) (doc : Str) :
    (alookup (ensure_document_collection s doc).2
      (get_document_collection_name doc)).isSome := by
  cases hl : alookup s (get_document_collection_name doc) with
  | none =>
    simp only [ensure_document_collection, hl]
    rw [alookup_append_of_none _ _ _ hl]
    simp [alookup]
  | some c => simp [ensure_document_collection, hl]

/-- Ensuring is the identity on states that already hold the collection. -/
theorem ensure_of_isSome (s : QdrantState) (doc : Str)
    (h : (alookup s (get_document_collection_name doc)).isSome) :
    ensure_document_collection s doc =
      (get_document_collection_name doc, s) := by
  obtain ⟨c, hc⟩ := Option.isSome_iff_exists.mp h
  simp [ensure_document_collection, hc]

/-- Unfolding equation for the state component of `store_document_chunks`. -/
theorem store_state_eq (h : Str → Int) (s : QdrantState) (user doc : Str)
    (chunks : List ChunkDict) (embs : List (Option Vec)) (now : Nat) :
    (store_document_chunks h s user doc chunks embs now).2 =
      if (mkPoints h user doc chunks embs now).isEmpty then
        (ensure_document_collection s doc).2
      else
        aset (ensure_document_collection s doc).2
          (ensure_document_collection s doc).1
          (upsertPoints
            ((alookup (ensure_document_collection s doc).2
              (ensure_document_collection s doc).1).getD [])
            (mkPoints h user doc chunks embs now)) := by
  unfold store_document_chunks
  by_cases he : (mkPoints h user doc chunks embs now).isEmpty = true <;>
    simp [he]

/-- C2 (confirmed): point ids are a deterministic function of the document
id and chunk index, so storing the same chunks and embeddings twice (at any
two timestamps) leaves the size of the document's collection unchanged —
the second call overwrites, it never duplicates. -/
theorem C2_idempotent_upsert (h : Str → Int) (s : QdrantState)
    (user doc : Str) (chunks : List ChunkDict) (embs : List (Option Vec))
    (t1 t2 : Nat) :
    ((alookup (store_document_chunks h
        (store_document_chunks h s user doc chunks embs t1).2
        user doc chunks embs t2).2
      (get_document_collection_name doc)).getD []).length =
    ((alookup (store_document_chunks h s user doc chunks embs t1).2
      (get_document_collection_name doc)).getD []).length := by
  have hids := mkPoints_ids_time h user doc chunks embs t2 t1
  have hlen2 : (mkPoints h user doc chunks embs t2).length
      = (mkPoints h user doc chunks embs t1).length := by
    have := congrArg List.length hids
    simpa using this
  have hfst := ensure_fst s doc
  have hsome1 := ensure_lookup_isSome s doc
  by_cases hemp : (mkPoints h user doc chunks embs t1).isEmpty = true
  · have hemp2 : (mkPoints h user doc chunks embs t2).isEmpty = true := by
      rcases hm : mkPoints h user doc chunks embs t2 with _ | ⟨a, l⟩
      · rfl
      · rw [hm] at hlen2
        rcases hm1 : mkPoints h user doc chunks embs t1 with _ | ⟨b, l1⟩
        · rw [hm1] at hlen2; simp at hlen2
        · rw [hm1] at hemp; simp [List.isEmpty] at hemp
    have hs1 : (store_document_chunks h s user doc chunks embs t1).2 =
        (ensure_document_collection s doc).2 := by
      rw [store_state_eq, if_pos hemp]
    have hsome1' : (alookup (store_document_chunks h s user doc chunks embs
        t1).2 (get_document_collection_name doc)).isSome := by
      rw [hs1]; exact hsome1
    have hs2 : (store_document_chunks h
        (store_document_chunks h s user doc chunks embs t1).2
        user doc chunks embs t2).2 =
        (store_document_chunks h s user doc chunks embs t1).2 := by
      rw [store_state_eq, if_pos hemp2,
        ensure_of_isSome _ doc hsome1']
    rw [hs2]
  · have hemp2 : ¬ (mkPoints h user doc chunks embs t2).isEmpty = true := by
      intro habs
      rcases hm : mkPoints h user doc chunks embs t2 with _ | ⟨a, l⟩
      · rw [hm] at hlen2
        rcases hm1 : mkPoints h user doc chunks embs t1 with _ | ⟨b, l1⟩
        · rw [hm1] at hemp; exact hemp rfl
        · rw [hm1] at hlen2; simp at hlen2
      · rw [hm] at habs; simp [List.isEmpty] at habs
    have hs1 : (store_document_chunks h s user doc chunks embs t1).2 =
        aset (ensure_document_collection s doc).2
          (get_document_collection_name doc)
          (upsertPoints
            ((alookup (ensure_document_collection s doc).2
              (get_document_collection_name doc)).getD [])
            (mkPoints h user doc chunks embs t1)) := by
      rw [store_state_eq, if_neg hemp, hfst]
    have hlook1 : alookup
        (store_document_chunks h s user doc chunks embs t1).2
        (get_document_collection_name doc) =
        some (upsertPoints
          ((alookup (ensure_document_collection s doc).2
            (get_document_collection_name doc)).getD [])
          (mkPoints h user doc chunks embs t1)) := by
      rw [hs1]
      exact alookup_aset_self _ _ _ hsome1
    have hsome1' : (alookup (store_document_chunks h s user doc chunks embs
        t1).2 (get_document_collection_name doc)).isSome := by
      rw [hlook1]; rfl
    have hens2 := ensure_of_isSome
      (store_document_chunks h s user doc chunks embs t1).2 doc hsome1'
    have hs2 : (store_document_chunks h
        (store_document_chunks h s user doc chunks embs t1).2
        user doc chunks embs t2).2 =
        aset (store_document_chunks h s user doc chunks embs t1).2
          (get_document_collection_name doc)
          (upsertPoints
            ((alookup (store_document_chunks h s user doc chunks embs t1).2
              (get_document_collection_name doc)).getD [])
            (mkPoints h user doc chunks embs t2)) := by
      rw [store_state_eq, if_neg hemp2, hens2]
    have hlook2 : alookup (store_document_chunks h
        (store_document_chunks h s user doc chunks embs t1).2
        user doc chunks embs t2).2
        (get_document_collection_name doc) =
        some (upsertPoints
          ((alookup (store_document_chunks h s user doc chunks embs t1).2
            (get_document_collection_name doc)).getD [])
          (mkPoints h user doc chunks embs t2)) := by
      rw [hs2]
      exact alookup_aset_self _ _ _ hsome1'
    rw [hlook2, hlook1]
    simp only [Option.getD_some]
    apply upsertPoints_length_of_all_mem
    intro p hp
    have hpid : p.id ∈ (mkPoints h user doc chunks embs t1).map Point.id := by
      rw [← hids]
      exact List.mem_map.mpr ⟨p, hp, rfl⟩
    obtain ⟨q, hq, hqid⟩ := List.mem_map.mp hpid
    rw [← hqid]
    exact mem_ids_upsertPoints_self _ _ q hq

/-- A member of an upserted collection is an old member or the new point. -/
theorem mem_upsertPoint (c : Collection) (p q : Point)
    (hq : q ∈ upsertPoint c p) : q ∈ c ∨ q = p := by
  unfold upsertPoint at hq
  by_cases hany : c.any (fun r => r.id == p.id) = true
  · rw [if_pos hany] at hq
    obtain ⟨r, hr, hrq⟩ := List.mem_map.mp hq
    by_cases hrp : (r.id == p.id) = true
    · right
      rw [← hrq]
      simp [hrp]
    · left
      have hrq' : r = q := by simpa [hrp] using hrq
      rw [← hrq']
      exact hr
  · rw [if_neg hany] at hq
    rcases List.mem_append.mp hq with hin | hin
    · left; exact hin
    · right; simpa using hin

/-- A member of a batch-upserted collection is an old member or one of the
upserted points. -/
theorem mem_upsertPoints (ps : List Point) :
    ∀ (c : Collection) (q : Point), q ∈ upsertPoints c ps → q ∈ c ∨ q ∈ ps := by
  induction ps with
  | nil => intro c q hq; left; exact hq
  | cons p rest ih =>
    intro c q hq
    rcases ih (upsertPoint c p) q hq with hin | hin
    · rcases mem_upsertPoint c p q hin with hin' | hin'
      · left; exact hin'
      · right; rw [hin']; exact List.mem_cons_self p rest
    · right; exact List.mem_cons_of_mem _ hin

/-- Every point built by `store_document_chunks` carries the stored
document's id in its payload. -/
theorem mkPoints_doc (h : Str → Int) (user doc : Str)
    (chunks : List ChunkDict) (embs : List (Option Vec)) (now : Nat) :
    ∀ p ∈ mkPoints h user doc chunks embs now,
      p.payload.document_id = doc := by
  intro p hp
  unfold mkPoints at hp
  obtain ⟨ie, hie, hmap⟩ := List.mem_filterMap.mp hp
  cases he : ie.2.2 with
  | none => rw [he] at hmap; simp at hmap
  | some v =>
    rw [he] at hmap
    simp only [Option.map_some', Option.some.injEq] at hmap
    rw [← hmap]

/-- Ensuring a collection preserves the store invariant. -/
theorem storeInv_ensure (s : QdrantState) (doc : Str) (hs : StoreInv s) :
    StoreInv (ensure_document_collection s doc).2 := by
  cases hl : alookup s (get_document_collection_name doc) with
  | some c => simpa [ensure_document_collection, hl] using hs
  | none =>
    simp only [ensure_document_collection, hl]
    intro e he p hp
    rcases List.mem_append.mp he with hin | hin
    · exact hs e hin p hp
    · have he' : e = (get_document_collection_name doc, ([] : Collection)) := by
        simpa using hin
      rw [he'] at hp
      exact absurd hp (List.not_mem_nil p)

/-- Overwriting a collection whose points all sanitize to its name
preserves the store invariant. -/
theorem storeInv_aset_name (s : QdrantState) (name : Str) (c : Collection)
    (hs : StoreInv s)
    (hc : ∀ p ∈ c, get_document_collection_name p.payload.document_id = name) :
    StoreInv (aset s name c) := by
  intro e he p hp
  unfold aset at he
  obtain ⟨e0, he0, heq⟩ := List.mem_map.mp he
  by_cases h0 : (e0.1 == name) = true
  · rw [if_pos h0] at heq
    rw [← heq] at hp ⊢
    exact hc p hp
  · rw [if_neg h0] at heq
    rw [← heq] at hp ⊢
    exact hs e0 he0 p hp

/-- Storing chunks preserves the store invariant. -/
theorem storeInv_store (h : Str → Int) (s : QdrantState) (user doc : Str)
    (chunks : List ChunkDict) (embs : List (Option Vec)) (now : Nat)
    (hs : StoreInv s) :
    StoreInv (store_document_chunks h s user doc chunks embs now).2 := by
  rw [store_state_eq]
  by_cases hemp : (mkPoints h user doc chunks embs now).isEmpty = true
  · rw [if_pos hemp]
    exact storeInv_ensure s doc hs
  · rw [if_neg hemp, ensure_fst]
    apply storeInv_aset_name _ _ _ (storeInv_ensure s doc hs)
    intro p hp
    rcases mem_upsertPoints _ _ p hp with hin | hin
    · cases hl : alookup (ensure_document_collection s doc).2
          (get_document_collection_name doc) with
      | none => rw [hl] at hin; simp at hin
      | some c0 =>
        rw [hl] at hin
        simp only [Option.getD_some] at hin
        exact storeInv_ensure s doc hs _ (alookup_mem _ _ _ hl) p hin
    · rw [mkPoints_doc h user doc chunks embs now p hin]

/-- The state component of a search equals the ensured state. -/
theorem search_state_eq (impl : SearchImpl) (s : QdrantState) (doc : Str)
    (qv : Vec) (k : Nat) :
    (search_similar_chunks impl s doc qv k).2 =
      (ensure_document_collection s doc).2 := rfl

/-- Deleting a collection preserves the store invariant. -/
theorem storeInv_delete (s : QdrantState) (doc : Str) (hs : StoreInv s) :
    StoreInv (delete_document_collection s doc).2 := by
  unfold delete_document_collection
  cases hl : alookup s (get_document_collection_name doc) with
  | none => simpa [hl] using hs
  | some c =>
    simp only [hl]
    intro e he p hp
    exact hs e (List.mem_of_mem_filter he) p hp

/-- Every reachable Qdrant state satisfies the store invariant. -/
theorem reachable_storeInv (h : Str → Int) (impl : SearchImpl) :
    ∀ s, Reachable h impl s → StoreInv s := by
  intro s hr
  induction hr with
  | empty => intro e he p hp; cases he
  | ensure doc _ ih => exact storeInv_ensure _ _ ih
  | store user doc chunks embs now _ ih =>
    exact storeInv_store _ _ _ _ _ _ _ ih
  | search doc qv limit _ ih =>
    rw [search_state_eq]
    exact storeInv_ensure _ _ ih
  | delete doc _ ih => exact storeInv_delete _ _ ih

/-- C1 (amended): cross-document isolation holds exactly up to collection
naming — for any reachable store and any two document ids whose sanitized
collection names differ, a search for document A never returns a payload
whose `document_id` is B.  (Sanitization drops every character that is not
alphanumeric or an underscore, so distinct ids with equal sanitized names
share one collection and are not isolated.) -/
theorem C1_amended (h : Str → Int) (impl : SearchImpl)
    (hv : SearchImplValid impl) (s : QdrantState)
    (hreach : Reachable h impl s) (A B : Str)
    (hname : get_document_collection_name A ≠ get_document_collection_name B)
    (qv : Vec) (k : Nat) :
    ∀ r ∈ (search_similar_chunks impl s A qv k).1, r.document_id ≠ B := by
  intro r hr hrB
  have hinv : StoreInv (ensure_document_collection s A).2 :=
    storeInv_ensure s A (reachable_storeInv h impl s hreach)
  simp only [search_similar_chunks] at hr
  obtain ⟨sp, hsp, hconv⟩ := List.mem_map.mp hr
  have hpt : sp.point ∈ (alookup (ensure_document_collection s A).2
      (ensure_document_collection s A).1).getD [] := hv _ _ _ sp hsp
  cases hl : alookup (ensure_document_collection s A).2
      (ensure_document_collection s A).1 with
  | none => rw [hl] at hpt; simp at hpt
  | some c0 =>
    rw [hl] at hpt
    simp only [Option.getD_some] at hpt
    have hdoc : get_document_collection_name sp.point.payload.document_id =
        (ensure_document_collection s A).1 :=
      hinv _ (alookup_mem _ _ _ hl) _ hpt
    have hrdoc : r.document_id = sp.point.payload.document_id := by
      rw [← hconv]
    rw [hrB] at hrdoc
    rw [← hrdoc, ensure_fst] at hdoc
    exact hname hdoc.symm

/-- Witness for C1 at the concrete one-point store, for ids with distinct
sanitized names, instantiated at the one result the search returns. -/
theorem C1_witness :
    ({ chunk_id := 0, score := 0, text := ("t").data,
       document_id := ("ab").data, chunk_index := 0 } :
      EmbeddingResult).document_id ≠ ("x").data :=
  C1_amended (fun _ => 0) searchAll searchAll_valid c1state
    (Reachable.store (("u").data) (("ab").data)
      [{ text := ("t").data, size := 1 }] [some [1]] 0 Reachable.empty)
    (("ab").data) (("x").data) (by decide) [1] 5
    { chunk_id := 0, score := 0, text := ("t").data,
      document_id := ("ab").data, chunk_index := 0 }
    (by decide)

/-- Size accounting of the sentence splitter: the fragments of a punctuation
split never hold more characters than the input, and the split produces at
most one more fragment than the input has characters. -/
theorem splitPunct_bounds : ∀ (l : Str),
    ((splitPunct l).map List.length).sum ≤ l.length ∧
    (splitPunct l).length ≤ l.length + 1 := by
  intro l
  induction l with
  | nil => simp [splitPunct]
  | cons c rest ih =>
    by_cases hc : isPunct c = true
    · cases rest with
      | nil => simp [splitPunct, hc]
      | cons d rest' =>
        by_cases hd : isPunct d = true
        · have heq : splitPunct (c :: d :: rest') = splitPunct (d :: rest') := by
            simp [splitPunct, hc, hd]
          rw [heq]
          refine ⟨le_trans ih.1 (by simp), le_trans ih.2 (by simp)⟩
        · have heq : splitPunct (c :: d :: rest') =
              [] :: splitPunct (d :: rest') := by
            simp [splitPunct, hc, hd]
          rw [heq]
          constructor
          · simpa using le_trans ih.1 (by simp)
          · have := ih.2
            simp only [List.length_cons] at this ⊢
            omega
    · cases hsp : splitPunct rest with
      | nil =>
        have heq : splitPunct (c :: rest) = [[c]] := by
          simp [splitPunct, hc, hsp]
        rw [heq]
        constructor
        · simp
        · simp
      | cons p ps =>
        have heq : splitPunct (c :: rest) = (c :: p) :: ps := by
          simp [splitPunct, hc, hsp]
        rw [heq]
        have ih1 := ih.1
        have ih2 := ih.2
        rw [hsp] at ih1 ih2
        simp only [List.map_cons, List.sum_cons, List.length_cons] at ih1 ih2 ⊢
        omega

/-- Length of a separator join: at most the fragments plus one separator per
fragment. -/
theorem joinSep_length_le (sep : Str) : ∀ (ps : List Str),
    (joinSep sep ps).length ≤
      ((ps.map List.length).sum) + sep.length * ps.length := by
  intro ps
  induction ps with
  | nil => simp [joinSep]
  | cons p ps ih =>
    cases ps with
    | nil => simp [joinSep]
    | cons q qs =>
      have hstep : joinSep sep (p :: q :: qs) =
          p ++ sep ++ joinSep sep (q :: qs) := rfl
      rw [hstep]
      simp only [List.length_append, List.map_cons, List.sum_cons,
        List.length_cons] at ih ⊢
      have := ih
      nlinarith [this]

/-- Dropping a prefix never lengthens a list. -/
theorem dropWhile_length_le {α : Type} (p : α → Bool) (l : List α) :
    (l.dropWhile p).length ≤ l.length := by
  induction l with
  | nil => simp
  | cons c cs ih =>
    by_cases hc : p c = true
    · simp only [List.dropWhile, hc]
      exact le_trans ih (by simp)
    · simp only [List.dropWhile, hc]
      simp

/-- Stripping never lengthens a string. -/
theorem pyStrip_length_le (l : Str) : (pyStrip l).length ≤ l.length := by
  unfold pyStrip
  rw [List.length_reverse]
  refine le_trans (dropWhile_length_le _ _) ?_
  rw [List.length_reverse]
  exact dropWhile_length_le _ _

/-- The computed overlap text never exceeds three times the overlap budget
(the budget-sized tail can gain at most one extra character per re-joined
sentence boundary). -/
theorem getOverlapText_length_le (t : Str) (O : Nat) (hO : 1 ≤ O) :
    (getOverlapText t O).length ≤ 3 * O := by
  by_cases hle : t.length ≤ O
  · have hrw : getOverlapText t O = t := by simp [getOverlapText, hle]
    rw [hrw]
    omega
  · have hslice : (pyTailSlice t O).length = O := by
      unfold pyTailSlice
      rw [if_neg (by simp; omega), List.length_drop]
      omega
    by_cases hsplit : 1 < (splitPunct (pyTailSlice t O)).length
    · have hrw : getOverlapText t O =
          pyStrip (joinSep dotSpace (splitPunct (pyTailSlice t O)).tail) := by
        simp [getOverlapText, hle, hsplit]
      rw [hrw]
      have hb := splitPunct_bounds (pyTailSlice t O)
      have hsum := hb.1
      have hcnt := hb.2
      rcases hps : splitPunct (pyTailSlice t O) with _ | ⟨p0, ptail⟩
      · rw [hps] at hsplit; simp at hsplit
      · rw [hps] at hsum hcnt
        simp only [List.map_cons, List.sum_cons, List.length_cons] at hsum hcnt
        refine le_trans (pyStrip_length_le _) ?_
        refine le_trans (joinSep_length_le dotSpace ptail) ?_
        have hsep : dotSpace.length = 2 := rfl
        rw [hsep]
        omega
    · have hrw : getOverlapText t O = pyTailSlice t O := by
        simp [getOverlapText, hle, hsplit]
      rw [hrw, hslice]
      omega

/-- A member of a list is bounded by the folded maximum. -/
theorem le_foldr_max (x : Nat) : ∀ (l : List Nat), x ∈ l →
    x ≤ l.foldr max 0 := by
  intro l
  induction l with
  | nil => intro hx; cases hx
  | cons a l ih =>
    intro hx
    rcases List.mem_cons.mp hx with rfl | hx'
    · exact le_max_left _ _
    · exact le_trans (ih hx') (le_max_right _ _)

/-- Invariant of the chunk-accumulation loop: chunk indices stay contiguous
from 0, and every emitted chunk text is bounded by
`max chunkSize (3 * overlap + 1 + L)` plus one character for each sentence
consumed so far (`j` counts the sentences already consumed). -/
theorem createChunksAux_spec (cS cO L : Nat) (hO : 1 ≤ cO) :
    ∀ (rem : List Str) (chunks : List Chunk) (current : Str)
      (size idx j : Nat),
      (∀ s ∈ rem, s.length ≤ L) →
      (∀ c ∈ chunks, c.text.length ≤ max cS (3 * cO + 1 + L) + j) →
      idx = chunks.length →
      chunks.map Chunk.chunk_index = List.range chunks.length →
      current.length ≤ size + j →
      size ≤ max cS (3 * cO + 1 + L) →
      (current = [] → size = 0) →
      ((createChunksAux cS cO rem chunks current size idx).map
          Chunk.chunk_index
        = List.range (createChunksAux cS cO rem chunks current size
            idx).length) ∧
      (∀ c ∈ createChunksAux cS cO rem chunks current size idx,
        c.text.length ≤ max cS (3 * cO + 1 + L) + (j + rem.length)) := by
  intro rem
  induction rem with
  | nil =>
    intro chunks current size idx j hL hb hidx hrange hcur hsz hemp
    by_cases hfin : (pyStrip current).isEmpty = true
    · have heq : createChunksAux cS cO [] chunks current size idx = chunks := by
        simp [createChunksAux, hfin]
      rw [heq]
      exact ⟨hrange, fun c hc => le_trans (hb c hc) (by omega)⟩
    · have heq : createChunksAux cS cO [] chunks current size idx
          = chunks ++ [⟨pyStrip current, current.length, idx, []⟩] := by
        simp [createChunksAux, hfin]
      rw [heq]
      constructor
      · rw [List.map_append, hrange, hidx]
        simp [List.range_succ]
      · intro c hc
        rcases List.mem_append.mp hc with hin | hin
        · exact le_trans (hb c hin) (by omega)
        · have hc' : c = ⟨pyStrip current, current.length, idx, []⟩ := by
            simpa using hin
          rw [hc']
          have h1 := pyStrip_length_le current
          show (pyStrip current).length ≤ _
          omega
  | cons s rest ih =>
    intro chunks current size idx j hL hb hidx hrange hcur hsz hemp
    have hsL : s.length ≤ L := hL s (List.mem_cons_self s rest)
    have hL' : ∀ u ∈ rest, u.length ≤ L :=
      fun u hu => hL u (List.mem_cons_of_mem _ hu)
    by_cases hguard : cS < size + s.length ∧ current ≠ []
    · have heq : createChunksAux cS cO (s :: rest) chunks current size idx
          = createChunksAux cS cO rest
              (chunks ++ [⟨pyStrip current, current.length, idx,
                getOverlapText current cO⟩])
              (getOverlapText current cO ++ ' ' :: s)
              (getOverlapText current cO ++ ' ' :: s).length (idx + 1) := by
        simp [createChunksAux, hguard]
      rw [heq]
      have hspec := ih (chunks ++ [⟨pyStrip current, current.length, idx,
          getOverlapText current cO⟩])
        (getOverlapText current cO ++ ' ' :: s)
        (getOverlapText current cO ++ ' ' :: s).length (idx + 1) (j + 1)
        hL'
        (by
          intro c hc
          rcases List.mem_append.mp hc with hin | hin
          · exact le_trans (hb c hin) (by omega)
          · have hc' : c = ⟨pyStrip current, current.length, idx,
                getOverlapText current cO⟩ := by simpa using hin
            rw [hc']
            have h1 := pyStrip_length_le current
            show (pyStrip current).length ≤ _
            omega)
        (by simp [hidx])
        (by
          rw [List.map_append, hrange, hidx]
          simp [List.range_succ])
        (by omega)
        (by
          have hov := getOverlapText_length_le current cO hO
          simp only [List.length_append, List.length_cons]
          omega)
        (by intro habs; simp at habs)
      refine ⟨hspec.1, fun c hc => le_trans (hspec.2 c hc) (by
        simp only [List.length_cons]
        omega)⟩
    · have heq : createChunksAux cS cO (s :: rest) chunks current size idx
          = createChunksAux cS cO rest chunks
              (if current.isEmpty then s else current ++ ' ' :: s)
              (size + s.length) idx := by
        simp [createChunksAux, hguard]
      rw [heq]
      have hng : ¬ cS < size + s.length ∨ current = [] := by
        by_cases h1 : cS < size + s.length
        · right
          by_contra h2
          exact hguard ⟨h1, h2⟩
        · left; exact h1
      have hspec := ih chunks
        (if current.isEmpty then s else current ++ ' ' :: s)
        (size + s.length) idx (j + 1)
        hL'
        (fun c hc => le_trans (hb c hc) (by omega))
        hidx hrange
        (by
          by_cases hce : current.isEmpty = true
          · rw [if_pos hce]
            omega
          · rw [if_neg hce]
            simp only [List.length_append, List.length_cons]
            omega)
        (by
          rcases hng with h1 | h1
          · omega
          · have hsz0 : size = 0 := hemp h1
            omega)
        (by
          by_cases hce : current.isEmpty = true
          · rw [if_pos hce]
            intro hs0
            have hsz0 : size = 0 := hemp (List.isEmpty_iff.mp hce)
            rw [hs0] at hsL ⊢
            simp
            omega
          · rw [if_neg hce]
            intro habs
            simp at habs)
      refine ⟨hspec.1, fun c hc => le_trans (hspec.2 c hc) (by
        simp only [List.length_cons]
        omega)⟩

set_option maxRecDepth 10000 in
/-- C4 (refuting the size clause as stated): for the 597-character input of
three 199-character sentences, chunking with `chunk_size = 398` produces a
chunk of 399 characters although no sentence exceeds 398 — the joining
space pushes the chunk past the bound. -/
theorem C4_counterexample :
    (∀ s ∈ splitIntoSentences c4text, s.length ≤ 398) ∧
    (∃ c ∈ (create_text_chunks c4text 398 50).toOption.getD [],
      398 < c.text.length) := by
  decide

/-- C4 (amended): chunk indices are exactly `0..n-1` contiguous; every
chunk's text length is bounded by `max S (3*O + 1 + L) + m`, where `L` is
the longest sentence length and `m` the number of sentences — the plain
bound `S` can be exceeded by the joining spaces and the seeded overlap
prefix even when no sentence exceeds `S`, and an oversized sentence is
still emitted whole inside this bound. -/
theorem C4_amended (text : Str) (S O : Nat) (hO : 1 ≤ O)
    (cs : List Chunk) (hcs : create_text_chunks text S O = .ok cs) :
    cs.map Chunk.chunk_index = List.range cs.length ∧
    ∀ c ∈ cs, c.text.length ≤
      max S (3 * O + 1 + maxSentLen text) +
        (splitIntoSentences text).length := by
  have hne : ¬ (pyStrip text).isEmpty = true := by
    intro habs
    unfold create_text_chunks at hcs
    rw [if_pos habs] at hcs
    cases hcs
  have hcs' : cs = createChunksAux S O (splitIntoSentences text) [] [] 0 0 := by
    unfold create_text_chunks at hcs
    rw [if_neg hne] at hcs
    injection hcs with h
    exact h.symm
  have hL : ∀ s ∈ splitIntoSentences text, s.length ≤ maxSentLen text := by
    intro s hs
    exact le_foldr_max s.length _ (List.mem_map_of_mem List.length hs)
  have hspec := createChunksAux_spec S O (maxSentLen text) hO
    (splitIntoSentences text) [] [] 0 0 0 hL
    (by intro c hc; cases hc) rfl (by simp) (by simp) (by simp) (by simp)
  rw [hcs']
  exact ⟨hspec.1, fun c hc => le_trans (hspec.2 c hc) (by omega)⟩

/-- Witness for C4 at a concrete three-character text producing one chunk. -/
theorem C4_witness :
    ([(⟨['a', 'b', '.'], 3, 0, []⟩ : Chunk)]).map Chunk.chunk_index =
      List.range ([(⟨['a', 'b', '.'], 3, 0, []⟩ : Chunk)]).length ∧
    ∀ c ∈ [(⟨['a', 'b', '.'], 3, 0, []⟩ : Chunk)], c.text.length ≤
      max 10 (3 * 5 + 1 + maxSentLen ['a', 'b', '.']) +
        (splitIntoSentences ['a', 'b', '.']).length :=
  C4_amended ['a', 'b', '.'] 10 5 (by decide)
    [⟨['a', 'b', '.'], 3, 0, []⟩] (by decide)

/-- Dropping a predicate-prefix stops inside the left part when the left
part holds a counterexample to the predicate. -/
theorem dropWhile_append_of_exists {α : Type} (p : α → Bool) :
    ∀ (a b : List α), (∃ c ∈ a, p c = false) →
      List.dropWhile p (a ++ b) = List.dropWhile p a ++ b := by
  intro a
  induction a with
  | nil =>
    intro b h
    obtain ⟨c, hc, _⟩ := h
    cases hc
  | cons x xs ih =>
    intro b h
    by_cases hx : p x = true
    · obtain ⟨c, hc, hcp⟩ := h
      have hc' : c ∈ xs := by
        rcases List.mem_cons.mp hc with rfl | h'
        · rw [hx] at hcp; cases hcp
        · exact h'
      simp only [List.cons_append, List.dropWhile, hx]
      exact ih b ⟨c, hc', hcp⟩
    · simp only [List.cons_append, List.dropWhile, hx]
      simp [Bool.not_eq_true] at hx
      simp [hx]

/-- A member violating the predicate survives `dropWhile`. -/
theorem mem_dropWhile_of_mem {α : Type} (p : α → Bool) (l : List α) (c : α)
    (hc : c ∈ l) (hp : p c = false) : c ∈ l.dropWhile p := by
  rw [← List.takeWhile_append_dropWhile (p := p) (l := l)] at hc
  rcases List.mem_append.mp hc with hin | hin
  · rw [List.mem_takeWhile_imp hin] at hp
    cases hp
  · exact hin

/-- A full stop survives stripping. -/
theorem dot_mem_pyStrip (l : Str) (h : '.' ∈ l) : '.' ∈ pyStrip l := by
  unfold pyStrip
  have hdot : pyIsSpace '.' = false := by decide
  have h1 : ('.' : Char) ∈ l.dropWhile pyIsSpace :=
    mem_dropWhile_of_mem pyIsSpace l '.' h hdot
  have h2 : ('.' : Char) ∈ (l.dropWhile pyIsSpace).reverse :=
    List.mem_reverse.mpr h1
  have h3 := mem_dropWhile_of_mem pyIsSpace _ '.' h2 hdot
  exact List.mem_reverse.mpr h3

/-- When the overlap does not begin with whitespace and the appended
material contains a full stop, the overlap survives stripping as a prefix. -/
theorem prefix_of_strip (ov r : Str) (hr : '.' ∈ r)
    (hov : startsWithSpace ov = false) :
    ov <+: pyStrip (ov ++ ' ' :: r) := by
  cases ov with
  | nil => exact List.nil_prefix
  | cons c ovt =>
    have hc : pyIsSpace c = false := by simpa [startsWithSpace] using hov
    unfold pyStrip
    have h1 : List.dropWhile pyIsSpace ((c :: ovt) ++ ' ' :: r)
        = (c :: ovt) ++ ' ' :: r := by
      simp only [List.cons_append, List.dropWhile, hc]
      rfl
    rw [h1, List.reverse_append]
    have hex : ∃ d ∈ (' ' :: r).reverse, pyIsSpace d = false :=
      ⟨'.', List.mem_reverse.mpr (List.mem_cons_of_mem _ hr), by decide⟩
    rw [dropWhile_append_of_exists pyIsSpace _ _ hex, List.reverse_append,
      List.reverse_reverse]
    exact ⟨_, rfl⟩

/-- Every merged sentence contains a full stop (the merge loop appends
`". "` after each raw sentence). -/
theorem combineAux_mem_dot : ∀ (raws : List Str) (cur : Str),
    (cur = [] ∨ '.' ∈ cur) →
    ∀ el ∈ combineAux raws cur, '.' ∈ el := by
  intro raws
  induction raws with
  | nil =>
    intro cur hcur el hel
    simp only [combineAux] at hel
    by_cases hc : cur.isEmpty = true
    · rw [if_pos hc] at hel
      cases hel
    · rw [if_neg hc] at hel
      have hel' : el = pyStrip cur := by simpa using hel
      rcases hcur with rfl | hdot
      · simp at hc
      · rw [hel']
        exact dot_mem_pyStrip _ hdot
  | cons s rest ih =>
    intro cur hcur el hel
    simp only [combineAux] at hel
    by_cases h1 : cur.length + s.length < 200
    · rw [if_pos h1] at hel
      refine ih _ (Or.inr ?_) el hel
      simp [dotSpace]
    · rw [if_neg h1] at hel
      by_cases h2 : cur.isEmpty = true
      · rw [if_pos h2] at hel
        exact ih _ (Or.inr (by simp [dotSpace])) el hel
      · rw [if_neg h2] at hel
        rcases List.mem_cons.mp hel with rfl | hel'
        · rcases hcur with rfl | hdot
          · simp at h2
          · exact dot_mem_pyStrip _ hdot
        · exact ih _ (Or.inr (by simp [dotSpace])) el hel'

/-- Every sentence produced by the splitter contains a full stop. -/
theorem splitIntoSentences_dot (text : Str) :
    ∀ el ∈ splitIntoSentences text, '.' ∈ el :=
  combineAux_mem_dot (rawSentences text) [] (Or.inl rfl)

/-- Appending a chunk seeded from the last chunk's overlap preserves the
adjacency structure. -/
theorem adjSeeded_append (chunks : List Chunk) (c : Chunk)
    (hadj : AdjSeeded chunks)
    (hlast : ∀ lastc, chunks.getLast? = some lastc →
      ∃ r, '.' ∈ r ∧ c.text = pyStrip (lastc.overlap ++ ' ' :: r)) :
    AdjSeeded (chunks ++ [c]) := by
  intro i ci ci1 h1 h2
  by_cases hi1 : i + 1 < chunks.length
  · have hi : i < chunks.length := by omega
    rw [List.get?_append hi] at h1
    rw [List.get?_append hi1] at h2
    exact hadj i ci ci1 h1 h2
  · by_cases hieq : i + 1 = chunks.length
    · have hi : i < chunks.length := by omega
      rw [List.get?_append hi] at h1
      rw [hieq, List.get?_concat_length] at h2
      injection h2 with h2'
      have hlst : chunks.getLast? = some ci := by
        rw [List.getLast?_eq_get?]
        have hidx : chunks.length - 1 = i := by omega
        rw [hidx]
        exact h1
      obtain ⟨r, hdot, htxt⟩ := hlast ci hlst
      exact ⟨r, hdot, by rw [← h2']; exact htxt⟩
    · exfalso
      have hlt : i + 1 < chunks.length + 1 := by
        by_contra hge
        rw [List.get?_eq_none.mpr (by simp; omega)] at h2
        cases h2
      omega

/-- Adjacency invariant of the chunk-accumulation loop: provided every
remaining sentence contains a full stop, the emitted chunk list satisfies
the seeding structure, as long as the current buffer extends the last
emitted chunk's overlap. -/
theorem createChunksAux_adj (cS cO : Nat) :
    ∀ (rem : List Str) (chunks : List Chunk) (current : Str)
      (size idx : Nat),
      (∀ s ∈ rem, '.' ∈ s) →
      AdjSeeded chunks →
      (∀ lastc, chunks.getLast? = some lastc →
        ∃ r, '.' ∈ r ∧ current = lastc.overlap ++ ' ' :: r) →
      AdjSeeded (createChunksAux cS cO rem chunks current size idx) := by
  intro rem
  induction rem with
  | nil =>
    intro chunks current size idx _ hadj hlast
    by_cases hfin : (pyStrip current).isEmpty = true
    · have heq : createChunksAux cS cO [] chunks current size idx = chunks := by
        simp [createChunksAux, hfin]
      rw [heq]
      exact hadj
    · have heq : createChunksAux cS cO [] chunks current size idx
          = chunks ++ [⟨pyStrip current, current.length, idx, []⟩] := by
        simp [createChunksAux, hfin]
      rw [heq]
      refine adjSeeded_append chunks _ hadj ?_
      intro lastc hl
      obtain ⟨r, hdot, hcur⟩ := hlast lastc hl
      exact ⟨r, hdot, by rw [← hcur]⟩
  | cons s rest ih =>
    intro chunks current size idx hdots hadj hlast
    have hsdot : '.' ∈ s := hdots s (List.mem_cons_self s rest)
    have hdots' : ∀ u ∈ rest, '.' ∈ u :=
      fun u hu => hdots u (List.mem_cons_of_mem _ hu)
    by_cases hguard : cS < size + s.length ∧ current ≠ []
    · have heq : createChunksAux cS cO (s :: rest) chunks current size idx
          = createChunksAux cS cO rest
              (chunks ++ [⟨pyStrip current, current.length, idx,
                getOverlapText current cO⟩])
              (getOverlapText current cO ++ ' ' :: s)
              (getOverlapText current cO ++ ' ' :: s).length (idx + 1) := by
        simp [createChunksAux, hguard]
      rw [heq]
      refine ih _ _ _ _ hdots' ?_ ?_
      · refine adjSeeded_append chunks _ hadj ?_
        intro lastc hl
        obtain ⟨r, hdot, hcur⟩ := hlast lastc hl
        exact ⟨r, hdot, by rw [← hcur]⟩
      · intro lastc' hl'
        rw [List.getLast?_concat] at hl'
        injection hl' with hl''
        refine ⟨s, hsdot, ?_⟩
        rw [← hl'']
    · have heq : createChunksAux cS cO (s :: rest) chunks current size idx
          = createChunksAux cS cO rest chunks
              (if current.isEmpty then s else current ++ ' ' :: s)
              (size + s.length) idx := by
        simp [createChunksAux, hguard]
      rw [heq]
      refine ih _ _ _ _ hdots' hadj ?_
      intro lastc hl
      obtain ⟨r, hdot, hcur⟩ := hlast lastc hl
      by_cases hce : current.isEmpty = true
      · exfalso
        have hnil : current = [] := List.isEmpty_iff.mp hce
        rw [hnil] at hcur
        simp at hcur
      · refine ⟨r ++ ' ' :: s, by simp [hdot], ?_⟩
        rw [if_neg hce, hcur]
        simp [List.append_assoc]

set_option maxRecDepth 10000 in
/-- C5 (refuting the claim as stated): for the concrete input `c5text`
chunked with `chunk_size = 400`, `chunk_overlap = 210`, the middle chunk's
overlap is a verbatim buffer that begins with a space, and it is not a
prefix of the following chunk's (stripped) text. -/
theorem C5_counterexample :
    create_text_chunks c5text 400 210 = .ok c5chunks ∧
    c5chunks.length = 3 ∧
    ¬ ((c5chunks.get! 1).overlap <+: (c5chunks.get! 2).text) := by
  refine ⟨by decide, by decide, by decide⟩

/-- C5 (amended): for adjacent chunks `i`, `i+1`, chunk `i+1`'s text is the
whitespace-stripped concatenation of chunk `i`'s overlap, a space, and the
sentences accumulated into chunk `i+1` (material containing a full stop);
consequently, whenever the overlap does not itself begin with whitespace,
the overlap is a prefix of chunk `i+1`'s text. -/
theorem C5_amended (text : Str) (S O : Nat) (cs : List Chunk)
    (hcs : create_text_chunks text S O = .ok cs) (i : Nat) (ci ci1 : Chunk)
    (h1 : cs.get? i = some ci) (h2 : cs.get? (i + 1) = some ci1) :
    ∃ r, '.' ∈ r ∧ ci1.text = pyStrip (ci.overlap ++ ' ' :: r) ∧
      (startsWithSpace ci.overlap = false → ci.overlap <+: ci1.text) := by
  have hne : ¬ (pyStrip text).isEmpty = true := by
    intro habs
    unfold create_text_chunks at hcs
    rw [if_pos habs] at hcs
    cases hcs
  have hcs' : cs = createChunksAux S O (splitIntoSentences text) [] [] 0 0 := by
    unfold create_text_chunks at hcs
    rw [if_neg hne] at hcs
    injection hcs with h
    exact h.symm
  have hadj : AdjSeeded cs := by
    rw [hcs']
    refine createChunksAux_adj S O (splitIntoSentences text) [] [] 0 0
      (splitIntoSentences_dot text) ?_ ?_
    · intro i ci ci1 hg1 _
      cases hg1
    · intro lastc hl
      cases hl
  obtain ⟨r, hdot, htext⟩ := hadj i ci ci1 h1 h2
  refine ⟨r, hdot, htext, fun hsw => ?_⟩
  rw [htext]
  exact prefix_of_strip ci.overlap r hdot hsw

set_option maxRecDepth 10000 in
/-- Witness for C5 at the concrete two-sentence text split at
`chunk_size = 250`. -/
theorem C5_witness :
    ∃ r, '.' ∈ r ∧
      (⟨List.replicate 199 'y' ++ ['.'], 201, 1, []⟩ : Chunk).text =
        pyStrip ((⟨List.replicate 199 'x' ++ ['.'], 200, 0, []⟩ :
          Chunk).overlap ++ ' ' :: r) ∧
      (startsWithSpace (⟨List.replicate 199 'x' ++ ['.'], 200, 0, []⟩ :
          Chunk).overlap = false →
        (⟨List.replicate 199 'x' ++ ['.'], 200, 0, []⟩ : Chunk).overlap <+:
          (⟨List.replicate 199 'y' ++ ['.'], 201, 1, []⟩ : Chunk).text) :=
  C5_amended c5wtext 250 50 c5wchunks (by decide) 0
    ⟨List.replicate 199 'x' ++ ['.'], 200, 0, []⟩
    ⟨List.replicate 199 'y' ++ ['.'], 201, 1, []⟩
    (by decide) (by decide)

end PdfRag
